import Mathlib

/-!
# Verification of the site-gen compilation pipeline (src/main.rs)

A shallow embedding of the Rust program in `src/main.rs` together with
theorems settling the specification claims.

Modelling conventions:

* Rust `String`/`&str` text is modelled as `List Char` (abbreviated `Str`).
  All inputs of interest are ASCII, where the program's byte offsets and the
  model's character offsets coincide; the offset arithmetic of the source is
  mirrored verbatim in these units.
* `serde_json::Value` is modelled by the inductive `Json`; `serde_json::Map`
  (a map from strings to values) is modelled as an association list whose
  `get` returns the first binding and whose `insert` replaces the binding in
  place (maps built by parsing have unique keys, so this coincides with the
  BTreeMap of the source).
* Fallible Rust code (`Result`, `bail!`) is modelled with `Except RErr`;
  `.expect(..)`/`.unwrap()` panics are modelled as the distinguished
  `RErr.panicked` error so that aborting behaviour stays observable.
* Loops whose induction variable is not structural (the `loop`s of
  `replace_uuid_links`) are written with an explicit fuel argument; the
  wrappers instantiate the fuel with `text.length + 1`, and a fuel-
  irrelevance lemma shows any fuel above the text length gives the same
  result, so the fuelled definition agrees with the Rust loop.
* External collaborators excluded by the spec (markdown conversion and
  handlebars rendering) are taken as function parameters threaded through
  the compiler exactly where the source threads them.
-/

set_option maxRecDepth 100000

abbrev Str := List Char

/-- Error type for the embedded program: `bailed` mirrors `bail!`/`anyhow`
errors, `panicked` mirrors `.expect`/`.unwrap` panics. -/
inductive RErr where
  | bailed (msg : Str)
  | panicked (msg : Str)
deriving DecidableEq

/-- Model of `serde_json::Value`. -/
inductive Json where
  | null
  | bool (b : Bool)
  | num (n : Int)
  | str (s : Str)
  | arr (xs : List Json)
  | obj (entries : List (Str × Json))

/-- Model of `serde_json::Map` (string-keyed map): an association list. -/
abbrev JsonMap := List (Str × Json)

/-- `Map::get`: first binding for the key. -/
def lookupMap (m : JsonMap) (k : Str) : Option Json :=
  match m with
  | [] => none
  | (k2, v) :: rest => if k2 = k then some v else lookupMap rest k

/-- `Map::insert`: replace the binding in place, else append. -/
def insertMap (k : Str) (v : Json) : JsonMap → JsonMap
  | [] => [(k, v)]
  | (k2, v2) :: rest =>
    if k2 = k then (k, v) :: rest else (k2, v2) :: insertMap k v rest

/-- `Value::get(key)`: `none` on non-objects, first binding otherwise. -/
def jget (j : Json) (k : Str) : Option Json :=
  match j with
  | .obj m => lookupMap m k
  | _ => none

/-- `Value::as_str`. -/
def asStr (j : Json) : Option Str :=
  match j with
  | .str s => some s
  | _ => none

/-- `starts_with("_")` on a file name. -/
def startsWithUnderscore (n : Str) : Bool :=
  match n with
  | c :: _ => c = '_'
  | [] => false

/-! ## The identifier-link matcher

`replace_uuid_links` uses the regex `\[[^\]]+\]\(:([a-zA-Z0-9]+)\)`.
Both quantified subpatterns are forced (the `[^\]]+` run must stop exactly at
the first `]`, the `[a-zA-Z0-9]+` run exactly at the first non-alphanumeric
character, which must be `)`), so the regex is deterministic at each start
position, and the leftmost match is obtained by trying successive start
positions.  `matchHere` decides a match at position 0 and reports the
capture-group span `(start, end)` of the identifier relative to the text;
`findMatch` returns the same span for the leftmost match. -/

def isAlnumAscii (c : Char) : Bool :=
  (('a' ≤ c ∧ c ≤ 'z') ∨ ('A' ≤ c ∧ c ≤ 'Z') ∨ ('0' ≤ c ∧ c ≤ '9') : Prop)

/-- Consume one expected character. -/
def expectChar (c : Char) : Str → Option Str
  | x :: rest => if x = c then some rest else none
  | [] => none

/-- Match the link regex at the start of `l`; returns the identifier
capture's `(start, end)` offsets (so `end` is the index of `)`). -/
def matchHere (l : Str) : Option (Nat × Nat) :=
  (expectChar '[' l).bind fun r1 =>
  let inner := r1.takeWhile (fun c => ¬ (c = ']'))
  if inner.length = 0 then none
  else
    (expectChar ']' (r1.drop inner.length)).bind fun r2 =>
    (expectChar '(' r2).bind fun r3 =>
    (expectChar ':' r3).bind fun r4 =>
    let ident := r4.takeWhile isAlnumAscii
    if ident.length = 0 then none
    else
      (expectChar ')' (r4.drop ident.length)).bind fun _ =>
      some (1 + inner.length + 3, 1 + inner.length + 3 + ident.length)

/-- Leftmost match of the link regex: identifier capture span. -/
def findMatch : Str → Option (Nat × Nat)
  | [] => none
  | c :: rest =>
    match matchHere (c :: rest) with
    | some se => some se
    | none =>
      match findMatch rest with
      | some (s, e) => some (s + 1, e + 1)
      | none => none

/-! ## The post lookup of `replace_uuid_links`

The inner block scans the `posts` array linearly; every post must expose a
string `id` and a `title` (panics otherwise); whenever `id` equals the
captured identifier the candidate `url` is overwritten with that post's
`link` (which must then be a string).  After the scan, an empty `url` is a
`bail!` ("uuid in text (..) should correspond to a post"). -/

def unresolvedMsg (ident : Str) : Str :=
  ("uuid in text (".data) ++ ident ++ (") should correspond to a post".data)

/-- The linear scan over the posts array, accumulating the candidate url. -/
def lookupScan : List Json → Str → Str → Except RErr Str
  | [], _, url => .ok url
  | post :: rest, ident, url =>
    match jget post ("id".data) with
    | none => .error (.panicked ("post meta to have id".data))
    | some idv =>
      match asStr idv with
      | none => .error (.panicked ("post id to be string".data))
      | some pid =>
        match jget post ("title".data) with
        | none => .error (.panicked ("post to have title key".data))
        | some _ =>
          if pid = ident then
            match jget post ("link".data) with
            | none => .error (.panicked ("post to have link key".data))
            | some lv =>
              match asStr lv with
              | none => .error (.panicked ("link to be a string".data))
              | some l => lookupScan rest ident l
          else lookupScan rest ident url

/-- The whole `url` block for one captured identifier. -/
def lookupUrl (posts : List Json) (ident : Str) : Except RErr Str :=
  match lookupScan posts ident [] with
  | .error er => .error er
  | .ok url => if url = [] then .error (.bailed (unresolvedMsg ident)) else .ok url

/-- `globals.get("posts").expect(..).as_array().expect(..)`. -/
def getPosts (globals : Json) : Except RErr (List Json) :=
  match jget globals ("posts".data) with
  | none => .error (.panicked ("globals to have posts key".data))
  | some v =>
    match v with
    | .arr posts => .ok posts
    | _ => .error (.panicked ("posts to be an array".data))

/-! ## `replace_uuid_links`

The Rust loop keeps the original `text` (repeatedly truncated past each
match) and a mutable `new_text`, patching `new_text` through a running
`offset`.  `ruLoopF` mirrors the body literally; the fuel strictly exceeds
the number of iterations because each iteration drops at least one character
from `text`. -/

def ruLoopF : Nat → Str → Str → Nat → Json → Except RErr Str
  | 0, _, newText, _, _ => .ok newText
  | fuel + 1, text, newText, offset, globals =>
    match findMatch text with
    | none => .ok newText
    | some (s, e) =>
      match getPosts globals with
      | .error er => .error er
      | .ok posts =>
        match lookupUrl posts ((text.drop s).take (e - s)) with
        | .error er => .error er
        | .ok url =>
          ruLoopF fuel (text.drop e)
            (newText.take (offset + s - 1) ++ url ++ newText.drop (offset + e))
            (offset + s + url.length - 1) globals

/-- `replace_uuid_links(text, globals)` of the source. -/
def replace_uuid_links (text : Str) (globals : Json) : Except RErr Str :=
  ruLoopF (text.length + 1) text text 0 globals

/-! ## The clean forward-pass resolver (spec side)

For the refinement claim about offset safety, `specResolveF` follows the
spec's words: walk the immutable text left-to-right; at each leftmost match
emit the unchanged material up to the `:`, then the resolved permalink, then
recurse on the not-yet-processed remainder. -/

def specResolveF : Nat → Str → Json → Except RErr Str
  | 0, text, _ => .ok text
  | fuel + 1, text, globals =>
    match findMatch text with
    | none => .ok text
    | some (s, e) =>
      match getPosts globals with
      | .error er => .error er
      | .ok posts =>
        match lookupUrl posts ((text.drop s).take (e - s)) with
        | .error er => .error er
        | .ok url =>
          match specResolveF fuel (text.drop e) globals with
          | .error er => .error er
          | .ok rest => .ok (text.take (s - 1) ++ url ++ rest)

/-- The forward-pass resolver, per the spec's description. -/
def specResolveLinks (text : Str) (globals : Json) : Except RErr Str :=
  specResolveF (text.length + 1) text globals

/-- The identifiers the resolver processes, in order (leftmost match,
then rescan strictly after it). -/
def occF : Nat → Str → List Str
  | 0, _ => []
  | fuel + 1, text =>
    match findMatch text with
    | none => []
    | some (s, e) => ((text.drop s).take (e - s)) :: occF fuel (text.drop e)

def occurrences (text : Str) : List Str := occF (text.length + 1) text

/-! ### Characterisation of the matcher -/

theorem expectChar_eq_some {c : Char} {l r : Str} :
    expectChar c l = some r ↔ l = c :: r := by
  cases l with
  | nil => simp [expectChar]
  | cons x rest =>
    simp only [expectChar, List.cons.injEq]
    by_cases h : x = c
    · subst h; simp
    · simp [h]

theorem drop_length_takeWhile (p : Char → Bool) (l : Str) :
    l.drop (l.takeWhile p).length = l.dropWhile p := by
  induction l with
  | nil => rfl
  | cons x rest ih =>
    by_cases h : p x
    · simp [List.takeWhile_cons, List.dropWhile_cons, h, ih]
    · simp [List.takeWhile_cons, List.dropWhile_cons, h]

theorem takeWhile_all_append {p : Char → Bool} {xs : Str} {y : Char}
    (rest : Str) (hxs : ∀ c ∈ xs, p c) (hy : ¬ p y) :
    (xs ++ y :: rest).takeWhile p = xs := by
  induction xs with
  | nil => simp [List.takeWhile_cons, hy]
  | cons x xs ih =>
    have hx : p x := hxs x (by simp)
    simp only [List.cons_append, List.takeWhile_cons, hx, if_true]
    rw [ih (fun c hc => hxs c (by simp [hc]))]

/-- Inversion: a successful `matchHere` exposes the full shape of the text
and the capture span. -/
theorem matchHere_eq_some {l : Str} {s e : Nat} (h : matchHere l = some (s, e)) :
    ∃ inner ident rest5 : Str,
      l = '[' :: inner ++ ']' :: '(' :: ':' :: (ident ++ ')' :: rest5) ∧
      inner ≠ [] ∧ ident ≠ [] ∧
      (∀ c ∈ inner, ¬ (c = ']')) ∧ (∀ c ∈ ident, isAlnumAscii c) ∧
      s = inner.length + 4 ∧ e = inner.length + 4 + ident.length := by
  unfold matchHere at h
  rw [Option.bind_eq_some] at h
  obtain ⟨r1, h1, h⟩ := h
  rw [expectChar_eq_some] at h1
  simp only at h
  by_cases hz : (r1.takeWhile (fun c => ¬ (c = ']'))).length = 0
  · rw [if_pos hz] at h; exact absurd h (by simp)
  rw [if_neg hz] at h
  rw [Option.bind_eq_some] at h
  obtain ⟨r2, h2, h⟩ := h
  rw [expectChar_eq_some] at h2
  rw [Option.bind_eq_some] at h
  obtain ⟨r3, h3, h⟩ := h
  rw [expectChar_eq_some] at h3
  rw [Option.bind_eq_some] at h
  obtain ⟨r4, h4, h⟩ := h
  rw [expectChar_eq_some] at h4
  by_cases hzi : (r4.takeWhile isAlnumAscii).length = 0
  · rw [if_pos hzi] at h; exact absurd h (by simp)
  rw [if_neg hzi] at h
  rw [Option.bind_eq_some] at h
  obtain ⟨r5, h5, h⟩ := h
  rw [expectChar_eq_some] at h5
  simp only [Option.some.injEq, Prod.mk.injEq] at h
  obtain ⟨hs, he⟩ := h
  have hr1 : r1 = r1.takeWhile (fun c => ¬ (c = ']')) ++ ']' :: r2 := by
    conv_lhs => rw [← List.takeWhile_append_dropWhile (fun c => ¬ (c = ']')) r1]
    rw [← drop_length_takeWhile (fun c => ¬ (c = ']')) r1, h2]
  have hr4 : r4 = r4.takeWhile isAlnumAscii ++ ')' :: r5 := by
    conv_lhs => rw [← List.takeWhile_append_dropWhile isAlnumAscii r4]
    rw [← drop_length_takeWhile isAlnumAscii r4, h5]
  refine ⟨r1.takeWhile (fun c => ¬ (c = ']')), r4.takeWhile isAlnumAscii, r5,
    ?_, ?_, ?_, ?_, ?_, ?_, ?_⟩
  · conv_lhs => rw [h1, hr1, h3, h4, hr4]
    simp
  · intro hnil; rw [hnil] at hz; exact hz rfl
  · intro hnil; rw [hnil] at hzi; exact hzi rfl
  · intro c hc
    have := List.mem_takeWhile_imp hc
    simpa using this
  · intro c hc
    exact List.mem_takeWhile_imp hc
  · omega
  · omega

/-- Construction: a text of the matching shape produces exactly this match. -/
theorem matchHere_construct (inner ident rest5 : Str)
    (hinner : inner ≠ []) (hident : ident ≠ [])
    (hin : ∀ c ∈ inner, ¬ (c = ']')) (hid : ∀ c ∈ ident, isAlnumAscii c) :
    matchHere ('[' :: inner ++ ']' :: '(' :: ':' :: (ident ++ ')' :: rest5)) =
      some (inner.length + 4, inner.length + 4 + ident.length) := by
  unfold matchHere
  rw [show expectChar '[' ('[' :: inner ++ ']' :: '(' :: ':' :: (ident ++ ')' :: rest5))
      = some (inner ++ ']' :: '(' :: ':' :: (ident ++ ')' :: rest5)) from
    expectChar_eq_some.mpr rfl]
  simp only [Option.bind_eq_bind, Option.some_bind]
  have htw : ((inner ++ ']' :: '(' :: ':' :: (ident ++ ')' :: rest5)).takeWhile
      (fun c => ¬ (c = ']'))) = inner :=
    takeWhile_all_append _ (fun c hc => by simpa using hin c hc) (by simp)
  rw [htw]
  rw [if_neg (by simpa using hinner)]
  rw [show (inner ++ ']' :: '(' :: ':' :: (ident ++ ')' :: rest5)).drop inner.length
      = ']' :: '(' :: ':' :: (ident ++ ')' :: rest5) from List.drop_left _ _]
  rw [show expectChar ']' (']' :: '(' :: ':' :: (ident ++ ')' :: rest5))
      = some ('(' :: ':' :: (ident ++ ')' :: rest5)) from expectChar_eq_some.mpr rfl]
  simp only [Option.some_bind]
  rw [show expectChar '(' ('(' :: ':' :: (ident ++ ')' :: rest5))
      = some (':' :: (ident ++ ')' :: rest5)) from expectChar_eq_some.mpr rfl]
  simp only [Option.some_bind]
  rw [show expectChar ':' (':' :: (ident ++ ')' :: rest5))
      = some (ident ++ ')' :: rest5) from expectChar_eq_some.mpr rfl]
  simp only [Option.some_bind]
  have htw2 : ((ident ++ ')' :: rest5).takeWhile isAlnumAscii) = ident :=
    takeWhile_all_append _ hid (by decide)
  rw [htw2]
  rw [if_neg (by simpa using hident)]
  rw [show (ident ++ ')' :: rest5).drop ident.length = ')' :: rest5 from
    List.drop_left _ _]
  rw [show expectChar ')' (')' :: rest5) = some rest5 from expectChar_eq_some.mpr rfl]
  simp only [Option.some_bind, Option.some.injEq, Prod.mk.injEq]
  omega

theorem matchHere_bounds {l : Str} {s e : Nat} (h : matchHere l = some (s, e)) :
    4 ≤ s ∧ s < e ∧ e < l.length := by
  obtain ⟨inner, ident, rest5, hl, hi, hid, _, _, hs, he⟩ := matchHere_eq_some h
  have hi1 : 1 ≤ inner.length := by
    cases inner with
    | nil => exact absurd rfl hi
    | cons a b => simp
  have hid1 : 1 ≤ ident.length := by
    cases ident with
    | nil => exact absurd rfl hid
    | cons a b => simp
  subst hl
  simp only [List.length_cons, List.length_append, List.length_cons]
  omega

theorem findMatch_bounds : ∀ {l : Str} {s e : Nat},
    findMatch l = some (s, e) → 4 ≤ s ∧ s < e ∧ e < l.length := by
  intro l
  induction l with
  | nil => intro s e h; simp [findMatch] at h
  | cons c rest ih =>
    intro s e h
    unfold findMatch at h
    cases hm : matchHere (c :: rest) with
    | some se =>
      rw [hm] at h
      cases se with
      | mk s0 e0 =>
        simp only [Option.some.injEq, Prod.mk.injEq] at h
        obtain ⟨hs, he⟩ := h
        subst hs; subst he
        exact matchHere_bounds hm
    | none =>
      rw [hm] at h
      cases hf : findMatch rest with
      | none => rw [hf] at h; exact absurd h (by simp)
      | some se =>
        rw [hf] at h
        cases se with
        | mk s0 e0 =>
          simp only [Option.some.injEq, Prod.mk.injEq] at h
          obtain ⟨hs, he⟩ := h
          subst hs; subst he
          have := ih hf
          simp only [List.length_cons]
          omega

theorem findMatch_of_matchHere {l : Str} {se : Nat × Nat}
    (h : matchHere l = some se) : findMatch l = some se := by
  cases l with
  | nil => simp [matchHere, expectChar] at h
  | cons c rest => unfold findMatch; rw [h]

/-! ### The loop of `replace_uuid_links` refines the forward pass -/

theorem ruLoopF_eq_specF (g : Json) :
    ∀ (fuel : Nat) (text A : Str),
    ruLoopF fuel text (A ++ text) A.length g =
      (specResolveF fuel text g).map (fun r => A ++ r) := by
  intro fuel
  induction fuel with
  | zero => intro text A; rfl
  | succ n ih =>
    intro text A
    unfold ruLoopF specResolveF
    cases hm : findMatch text with
    | none => simp [hm, Except.map]
    | some se =>
      obtain ⟨s, e⟩ := se
      obtain ⟨hs4, hse, hel⟩ := findMatch_bounds hm
      simp only [hm]
      cases hp : getPosts g with
      | error er => simp [hp, Except.map]
      | ok posts =>
        simp only [hp]
        cases hu : lookupUrl posts ((text.drop s).take (e - s)) with
        | error er => simp [hu, Except.map]
        | ok url =>
          simp only [hu]
          have htake : (A ++ text).take (A.length + s - 1) = A ++ text.take (s - 1) := by
            rw [show A.length + s - 1 = A.length + (s - 1) by omega, List.take_append]
          have hdrop : (A ++ text).drop (A.length + e) = text.drop e :=
            List.drop_append e
          rw [htake, hdrop]
          have e2 : A.length + s + url.length - 1 =
              ((A ++ text.take (s - 1)) ++ url).length := by
            simp only [List.length_append, List.length_take]
            omega
          rw [e2, ih (text.drop e) ((A ++ text.take (s - 1)) ++ url)]
          cases specResolveF n (text.drop e) g with
          | error er => simp [Except.map]
          | ok rest => simp [Except.map, List.append_assoc]

/-- Any fuel above the current text length yields the same result: the
fuelled loop is the Rust loop. -/
theorem ruLoopF_fuel (g : Json) :
    ∀ (f1 : Nat) {f2 : Nat} (text newText : Str) (offset : Nat),
    text.length < f1 → text.length < f2 →
    ruLoopF f1 text newText offset g = ruLoopF f2 text newText offset g := by
  intro f1
  induction f1 with
  | zero => intro f2 text newText offset h1 h2; omega
  | succ n ih =>
    intro f2 text newText offset h1 h2
    cases f2 with
    | zero => omega
    | succ m =>
      unfold ruLoopF
      cases hm : findMatch text with
      | none => simp [hm]
      | some se =>
        obtain ⟨s, e⟩ := se
        obtain ⟨hs4, hse, hel⟩ := findMatch_bounds hm
        simp only [hm]
        cases hp : getPosts g with
        | error er => simp [hp]
        | ok posts =>
          simp only [hp]
          cases hu : lookupUrl posts ((text.drop s).take (e - s)) with
          | error er => simp [hu]
          | ok url =>
            simp only [hu]
            have hlt : (text.drop e).length < n := by
              simp only [List.length_drop]; omega
            have hlt2 : (text.drop e).length < m := by
              simp only [List.length_drop]; omega
            exact ih (text.drop e) _ _ hlt hlt2

/-! ### The posts scan: well-formedness, last-match-wins -/

/-- `(value.get k).and_then(as_str)`. -/
def getStrField (p : Json) (k : Str) : Option Str := (jget p k).bind asStr

/-- The post's `id` string, defaulting to the empty string. -/
def getIdD (p : Json) : Str := (getStrField p ("id".data)).getD []

/-- The post's `link` string, defaulting to the empty string. -/
def getLinkD (p : Json) : Str := (getStrField p ("link".data)).getD []

/-- A post record as the resolver's scan expects it: a string `id`, a
`title`, and a nonempty string `link`. -/
def wfPost (p : Json) : Bool :=
  (getStrField p ("id".data)).isSome &&
  ((jget p ("title".data)).isSome &&
    (match getStrField p ("link".data) with
     | some l => !l.isEmpty
     | none => false))

def wfPosts (posts : List Json) : Bool := posts.all wfPost

/-- No post of the list carries the identifier. -/
def noMatchB (posts : List Json) (ident : Str) : Bool :=
  posts.all (fun p => decide (¬ (getIdD p = ident)))

/-- The candidate the linear scan ends with, expressed functionally. -/
def scanUrlPure : List Json → Str → Str → Str
  | [], _, url => url
  | p :: rest, ident, url =>
    scanUrlPure rest ident (if getIdD p = ident then getLinkD p else url)

/-- The last post of the list whose `id` equals the identifier. -/
def lastMatchAux : List Json → Str → Option Json → Option Json
  | [], _, acc => acc
  | p :: rest, ident, acc =>
    lastMatchAux rest ident (if getIdD p = ident then some p else acc)

def lastMatch (posts : List Json) (ident : Str) : Option Json :=
  lastMatchAux posts ident none

theorem lookupScan_wf :
    ∀ (posts : List Json) (ident url : Str), wfPosts posts = true →
    lookupScan posts ident url = .ok (scanUrlPure posts ident url) := by
  intro posts
  induction posts with
  | nil => intro ident url _; rfl
  | cons p rest ih =>
    intro ident url hwf
    have hall := hwf
    simp only [wfPosts, List.all_cons, Bool.and_eq_true] at hall
    obtain ⟨hp, hrest⟩ := hall
    simp only [wfPost, Bool.and_eq_true] at hp
    obtain ⟨hid, htitle, hlink⟩ := hp
    obtain ⟨pid, hpid⟩ := Option.isSome_iff_exists.mp hid
    obtain ⟨idv, hidv, hidv2⟩ := Option.bind_eq_some.mp hpid
    obtain ⟨tv, htv⟩ := Option.isSome_iff_exists.mp htitle
    have hlink2 : ∃ l, getStrField p ("link".data) = some l ∧ l.isEmpty = false := by
      cases hl : getStrField p ("link".data) with
      | none => rw [hl] at hlink; exact absurd hlink (by simp)
      | some l =>
        rw [hl] at hlink
        refine ⟨l, rfl, ?_⟩
        simpa using hlink
    obtain ⟨l, hl, hlne⟩ := hlink2
    obtain ⟨lv, hlv, hlv2⟩ := Option.bind_eq_some.mp hl
    have hgid : getIdD p = pid := by simp [getIdD, hpid]
    have hglink : getLinkD p = l := by simp [getLinkD, hl]
    unfold lookupScan
    rw [hidv]
    simp only [hidv2]
    rw [htv]
    simp only
    by_cases heq : pid = ident
    · rw [if_pos heq, hlv]
      simp only [hlv2]
      rw [ih ident l (by simpa [wfPosts] using hrest)]
      have hstep : scanUrlPure (p :: rest) ident url = scanUrlPure rest ident l := by
        simp only [scanUrlPure]
        rw [hgid, if_pos heq, hglink]
      rw [hstep]
    · rw [if_neg heq]
      rw [ih ident url (by simpa [wfPosts] using hrest)]
      have hstep : scanUrlPure (p :: rest) ident url = scanUrlPure rest ident url := by
        simp only [scanUrlPure]
        rw [hgid, if_neg heq]
      rw [hstep]

theorem lastMatchAux_absorb :
    ∀ (posts : List Json) (ident : Str) (a : Option Json),
    lastMatchAux posts ident a =
      (match lastMatch posts ident with
       | none => a
       | some q => some q) := by
  intro posts
  induction posts with
  | nil => intro ident a; rfl
  | cons p rest ih =>
    intro ident a
    unfold lastMatch lastMatchAux
    by_cases heq : getIdD p = ident
    · rw [if_pos heq, if_pos heq, ih ident (some p)]
      cases lastMatch rest ident <;> rfl
    · rw [if_neg heq, if_neg heq]
      exact ih ident a

theorem scanUrlPure_lastMatch :
    ∀ (posts : List Json) (ident url : Str),
    scanUrlPure posts ident url =
      (match lastMatch posts ident with
       | none => url
       | some p => getLinkD p) := by
  intro posts
  induction posts with
  | nil => intro ident url; rfl
  | cons p rest ih =>
    intro ident url
    unfold scanUrlPure lastMatch lastMatchAux
    by_cases heq : getIdD p = ident
    · rw [if_pos heq, if_pos heq, ih ident (getLinkD p),
        lastMatchAux_absorb rest ident (some p)]
      cases lastMatch rest ident <;> rfl
    · rw [if_neg heq, if_neg heq]
      exact ih ident url

theorem lastMatch_none_of_noMatch :
    ∀ (posts : List Json) (ident : Str), noMatchB posts ident = true →
    lastMatch posts ident = none := by
  intro posts
  induction posts with
  | nil => intro ident _; rfl
  | cons p rest ih =>
    intro ident hno
    simp only [noMatchB, List.all_cons, Bool.and_eq_true, decide_eq_true_eq] at hno
    obtain ⟨hp, hrest⟩ := hno
    unfold lastMatch lastMatchAux
    rw [if_neg hp]
    exact ih ident (by simpa [noMatchB] using hrest)

theorem lastMatch_isSome_of_exists :
    ∀ (posts : List Json) (ident : Str),
    (∃ p ∈ posts, getIdD p = ident) → (lastMatch posts ident).isSome = true := by
  intro posts
  induction posts with
  | nil => intro ident h; simp at h
  | cons p rest ih =>
    intro ident h
    unfold lastMatch lastMatchAux
    by_cases heq : getIdD p = ident
    · rw [if_pos heq, lastMatchAux_absorb rest ident (some p)]
      cases lastMatch rest ident <;> simp
    · rw [if_neg heq]
      rcases h with ⟨q, hq, hqid⟩
      rcases List.mem_cons.mp hq with heq2 | hmem
      · exact absurd (heq2 ▸ hqid) heq
      · exact ih ident ⟨q, hmem, hqid⟩

theorem lastMatchAux_mem :
    ∀ (posts : List Json) (ident : Str) (a : Option Json) (p : Json),
    lastMatchAux posts ident a = some p → a = some p ∨ p ∈ posts := by
  intro posts
  induction posts with
  | nil => intro ident a p h; exact Or.inl h
  | cons q rest ih =>
    intro ident a p h
    unfold lastMatchAux at h
    by_cases heq : getIdD q = ident
    · rw [if_pos heq] at h
      rcases ih ident (some q) p h with h2 | h2
      · right
        simp only [Option.some.injEq] at h2
        simp [h2]
      · right; simp [h2]
    · rw [if_neg heq] at h
      rcases ih ident a p h with h2 | h2
      · exact Or.inl h2
      · right; simp [h2]

theorem lastMatch_mem {posts : List Json} {ident : Str} {p : Json}
    (h : lastMatch posts ident = some p) : p ∈ posts := by
  rcases lastMatchAux_mem posts ident none p h with h2 | h2
  · exact absurd h2 (by simp)
  · exact h2

theorem wfPost_link_ne {p : Json} (h : wfPost p = true) : ¬ (getLinkD p = []) := by
  simp only [wfPost, Bool.and_eq_true] at h
  obtain ⟨_, _, hlink⟩ := h
  cases hl : getStrField p ("link".data) with
  | none => rw [hl] at hlink; exact absurd hlink (by simp)
  | some l =>
    rw [hl] at hlink
    have : l.isEmpty = false := by simpa using hlink
    have hlne : ¬ (l = []) := by
      intro hc; rw [hc] at this; simp [List.isEmpty] at this
    simpa [getLinkD, hl] using hlne

theorem lookupUrl_matched {posts : List Json} {ident : Str} {p : Json}
    (hwf : wfPosts posts = true) (hlm : lastMatch posts ident = some p) :
    lookupUrl posts ident = .ok (getLinkD p) := by
  have hmem := lastMatch_mem hlm
  have hwp : wfPost p = true := by
    have := hwf
    simp only [wfPosts, List.all_eq_true] at this
    exact this p hmem
  simp only [lookupUrl, lookupScan_wf posts ident [] hwf,
    scanUrlPure_lastMatch posts ident [], hlm]
  rw [if_neg (wfPost_link_ne hwp)]

theorem lookupUrl_unmatched {posts : List Json} {ident : Str}
    (hwf : wfPosts posts = true) (hno : noMatchB posts ident = true) :
    lookupUrl posts ident = .error (.bailed (unresolvedMsg ident)) := by
  simp only [lookupUrl, lookupScan_wf posts ident [] hwf,
    scanUrlPure_lastMatch posts ident [], lastMatch_none_of_noMatch posts ident hno]
  simp

/-! ### Unresolvable identifiers force an error (spec side) -/

theorem specResolveF_unresolved (g : Json) (posts : List Json)
    (hg : getPosts g = .ok posts) (hwf : wfPosts posts = true) :
    ∀ (fuel : Nat) (text ident : Str),
      ident ∈ occF fuel text → noMatchB posts ident = true →
      ∃ j, j ∈ occF fuel text ∧ noMatchB posts j = true ∧
        specResolveF fuel text g = .error (.bailed (unresolvedMsg j)) := by
  intro fuel
  induction fuel with
  | zero => intro text ident hmem _; simp [occF] at hmem
  | succ n ih =>
    intro text ident hmem hno
    unfold occF at hmem
    cases hm : findMatch text with
    | none => rw [hm] at hmem; simp at hmem
    | some se =>
      obtain ⟨s, e⟩ := se
      rw [hm] at hmem
      unfold specResolveF
      simp only [hm, hg]
      by_cases h0 : noMatchB posts ((text.drop s).take (e - s)) = true
      · refine ⟨(text.drop s).take (e - s), ?_, h0, ?_⟩
        · unfold occF; rw [hm]; exact List.mem_cons_self _ _
        · rw [lookupUrl_unmatched hwf h0]
      · have hmatched : ∃ p ∈ posts, getIdD p = (text.drop s).take (e - s) := by
          by_contra hc
          push_neg at hc
          apply h0
          simp only [noMatchB, List.all_eq_true, decide_eq_true_eq]
          intro p hp
          exact hc p hp
        have hsome := lastMatch_isSome_of_exists posts _ hmatched
        obtain ⟨p, hp⟩ := Option.isSome_iff_exists.mp hsome
        rw [lookupUrl_matched hwf hp]
        have htail : ident ∈ occF n (text.drop e) := by
          rcases List.mem_cons.mp hmem with heq | hmem2
          · exact absurd (heq ▸ hno) h0
          · exact hmem2
        obtain ⟨j, hj1, hj2, hj3⟩ := ih (text.drop e) ident htail hno
        refine ⟨j, ?_, hj2, ?_⟩
        · unfold occF; rw [hm]; exact List.mem_cons_of_mem _ hj1
        · rw [hj3]

/-! ### Concrete data for the resolver claims -/

def examplePostA : Json :=
  Json.obj [("id".data, Json.str ("aaa1".data)), ("title".data, Json.str ("A".data)),
    ("link".data, Json.str ("/blog/a.html".data))]

def examplePostB : Json :=
  Json.obj [("id".data, Json.str ("bbb2".data)), ("title".data, Json.str ("B".data)),
    ("link".data, Json.str ("/blog/b.html".data))]

def exampleGlobalsTwo : Json :=
  Json.obj [("posts".data, Json.arr [examplePostA, examplePostB])]

def unresolvedPosts : List Json := [examplePostA]

def unresolvedGlobals : Json := Json.obj [("posts".data, Json.arr unresolvedPosts)]

def dupPostFirst : Json :=
  Json.obj [("id".data, Json.str ("abc1".data)), ("title".data, Json.str ("First".data)),
    ("link".data, Json.str ("/first.html".data))]

def dupPostSecond : Json :=
  Json.obj [("id".data, Json.str ("abc1".data)), ("title".data, Json.str ("Second".data)),
    ("link".data, Json.str ("/second.html".data))]

def dupPosts : List Json := [dupPostFirst, dupPostSecond]

def dupGlobals : Json := Json.obj [("posts".data, Json.arr dupPosts)]

/-- **C2**: the resolver's patch-with-offsets loop coincides with the clean
left-to-right forward pass over the immutable original text, so rewriting an
earlier identifier link never corrupts the offsets of a later one; in
particular two distinct identifiers in one body are both rewritten to their
posts' `link` values. -/
theorem replace_uuid_links_left_to_right :
    (∀ (text : Str) (globals : Json),
        replace_uuid_links text globals = specResolveLinks text globals) ∧
      replace_uuid_links (("See [a](:aaa1) and [b](:bbb2).").data) exampleGlobalsTwo =
        .ok (("See [a](/blog/a.html) and [b](/blog/b.html).").data) := by
  constructor
  · intro text globals
    have h := ruLoopF_eq_specF globals (text.length + 1) text []
    simp only [List.nil_append, List.length_nil] at h
    unfold replace_uuid_links specResolveLinks
    rw [h]
    cases specResolveF (text.length + 1) text globals <;> simp [Except.map]
  · rfl

/-- **C4**: whenever any identifier the resolver processes matches no post of
the global context, `replace_uuid_links` fails with the unresolved-identifier
`bail!` naming one such identifier (it neither leaves the link unchanged nor
succeeds). -/
theorem replace_uuid_links_unresolved (text : Str) (globals : Json)
    (posts : List Json) (ident : Str)
    (hg : getPosts globals = .ok posts) (hwf : wfPosts posts = true)
    (hmem : ident ∈ occurrences text) (hno : noMatchB posts ident = true) :
    ∃ j, j ∈ occurrences text ∧ noMatchB posts j = true ∧
      replace_uuid_links text globals = .error (.bailed (unresolvedMsg j)) := by
  obtain ⟨j, hj1, hj2, hj3⟩ :=
    specResolveF_unresolved globals posts hg hwf (text.length + 1) text ident hmem hno
  refine ⟨j, hj1, hj2, ?_⟩
  have h := ruLoopF_eq_specF globals (text.length + 1) text []
  simp only [List.nil_append, List.length_nil] at h
  unfold replace_uuid_links
  rw [h, hj3]
  rfl

/-- Witness for C4 at a concrete input: the body `[t](:zzzz)` against a
global context whose single post has id `aaa1`. -/
theorem replace_uuid_links_unresolved_witness :
    ∃ j, j ∈ occurrences (("[t](:zzzz)").data) ∧ noMatchB unresolvedPosts j = true ∧
      replace_uuid_links (("[t](:zzzz)").data) unresolvedGlobals =
        .error (.bailed (unresolvedMsg j)) :=
  replace_uuid_links_unresolved (("[t](:zzzz)").data) unresolvedGlobals
    unresolvedPosts (("zzzz").data) rfl rfl (by decide) rfl

/-- **C5**: with duplicate post ids, the single linear scan silently keeps the
last matching post found, and the rewritten target is that post's `link`. -/
theorem duplicate_id_last_match_wins :
    (∀ (posts : List Json) (ident : Str) (p : Json),
        wfPosts posts = true → lastMatch posts ident = some p →
        lookupUrl posts ident = .ok (getLinkD p)) ∧
      replace_uuid_links (("[t](:abc1)").data) dupGlobals =
        .ok (("[t](/second.html)").data) := by
  constructor
  · intro posts ident p hwf hlm
    exact lookupUrl_matched hwf hlm
  · rfl

/-- Witness for C5: two posts sharing id `abc1`; the scan returns the second
post's link. -/
theorem duplicate_id_last_match_wins_witness :
    lookupUrl dupPosts (("abc1").data) = .ok (getLinkD dupPostSecond) :=
  duplicate_id_last_match_wins.1 dupPosts (("abc1").data) dupPostSecond rfl rfl

/-! ## `replace_globals`

The source clones the metadata object, then iterates the ORIGINAL entries;
for every string value starting with `@` whose stripped key is present in the
global context, it inserts the global's value under the entry's key into the
clone.  Substituted values are never re-examined. -/

/-- `val.starts_with("@")`. -/
def startsWithAt (s : Str) : Bool :=
  match s with
  | c :: _ => c = '@'
  | [] => false

def replaceGlobalsLoop : List (Str × Json) → Json → JsonMap → JsonMap
  | [], _, acc => acc
  | (k, v) :: rest, g, acc =>
    let acc2 :=
      match asStr v with
      | some s =>
        if startsWithAt s then
          match jget g (s.drop 1) with
          | some w => insertMap k w acc
          | none => acc
        else acc
      | none => acc
    replaceGlobalsLoop rest g acc2

/-- `replace_globals(obj, globals)` of the source (the `expect` on a
non-object is a panic). -/
def replace_globals (obj : Json) (globals : Json) : Except RErr JsonMap :=
  match obj with
  | .obj m => .ok (replaceGlobalsLoop m globals m)
  | _ => .error (.panicked ("obj to be mapping".data))

/-- Spec-side description of one entry's treatment: a string beginning with
the sentinel is replaced by the global context's value at the stripped key
when present; everything else is untouched. -/
def substValue (g : Json) (v : Json) : Json :=
  match v with
  | .str s =>
    if startsWithAt s then
      match jget g (s.drop 1) with
      | some w => w
      | none => .str s
    else .str s
  | other => other

theorem insertMap_append_not_mem {k : Str} {w v : Json} :
    ∀ {C rest : JsonMap}, k ∉ C.map Prod.fst →
    insertMap k w (C ++ (k, v) :: rest) = C ++ (k, w) :: rest := by
  intro C
  induction C with
  | nil =>
    intro rest _
    simp [insertMap]
  | cons kv2 C2 ih =>
    obtain ⟨k2, v2⟩ := kv2
    intro rest hnot
    simp only [List.map_cons, List.mem_cons] at hnot
    push_neg at hnot
    obtain ⟨hne, hnot2⟩ := hnot
    simp only [List.cons_append, insertMap]
    rw [if_neg (fun hc => hne hc.symm)]
    exact congrArg (fun t => (k2, v2) :: t) (ih hnot2)

theorem replaceGlobalsLoop_spec (g : Json) :
    ∀ (entries C : JsonMap),
      (entries.map Prod.fst).Nodup →
      (∀ k, k ∈ C.map Prod.fst → k ∉ entries.map Prod.fst) →
      replaceGlobalsLoop entries g (C ++ entries) =
        C ++ entries.map (fun kv => (kv.1, substValue g kv.2)) := by
  intro entries
  induction entries with
  | nil =>
    intro C _ _
    simp [replaceGlobalsLoop]
  | cons kv rest ih =>
    obtain ⟨k, v⟩ := kv
    intro C hnodup hdisj
    simp only [List.map_cons, List.nodup_cons] at hnodup
    obtain ⟨hknotin, hrestnodup⟩ := hnodup
    have hkC : k ∉ C.map Prod.fst := by
      intro hc
      have hmem : k ∈ List.map Prod.fst ((k, v) :: rest) := by
        simp only [List.map_cons]
        exact List.mem_cons_self _ _
      exact hdisj k hc hmem
    have hacc2 :
        (match asStr v with
         | some s =>
           if startsWithAt s then
             match jget g (s.drop 1) with
             | some w => insertMap k w (C ++ (k, v) :: rest)
             | none => C ++ (k, v) :: rest
           else C ++ (k, v) :: rest
         | none => C ++ (k, v) :: rest) =
          (C ++ [(k, substValue g v)]) ++ rest := by
      cases v with
      | str s =>
        simp only [asStr, substValue]
        cases hg2 : jget g (s.drop 1) with
        | some w =>
          by_cases hat : startsWithAt s = true
          · rw [if_pos hat, if_pos hat]
            show insertMap k w (C ++ (k, Json.str s) :: rest) = (C ++ [(k, w)]) ++ rest
            rw [insertMap_append_not_mem hkC]
            simp
          · rw [if_neg hat, if_neg hat]
            show C ++ (k, Json.str s) :: rest = (C ++ [(k, Json.str s)]) ++ rest
            simp
        | none =>
          by_cases hat : startsWithAt s = true
          · rw [if_pos hat, if_pos hat]
            show C ++ (k, Json.str s) :: rest = (C ++ [(k, Json.str s)]) ++ rest
            simp
          · rw [if_neg hat, if_neg hat]
            show C ++ (k, Json.str s) :: rest = (C ++ [(k, Json.str s)]) ++ rest
            simp
      | null => simp [asStr, substValue]
      | bool b => simp [asStr, substValue]
      | num n => simp [asStr, substValue]
      | arr xs => simp [asStr, substValue]
      | obj m2 => simp [asStr, substValue]
    have hC2 := ih (C ++ [(k, substValue g v)]) hrestnodup (by
      intro k2 hk2
      simp only [List.map_append, List.mem_append, List.map_cons, List.map_nil,
        List.mem_cons, List.not_mem_nil, or_false] at hk2
      rcases hk2 with hk2 | hk2
      · intro hc
        exact hdisj k2 hk2 (by simp [hc])
      · rw [hk2]
        exact hknotin)
    simp only [replaceGlobalsLoop]
    rw [hacc2, hC2]
    simp

/-- **C6**: `replace_globals` acts pointwise on the metadata: a string entry
beginning with `@` is replaced by the global context's value at the stripped
key when that key exists, is kept verbatim when it does not, and every other
entry is unchanged; substituted values are not re-scanned. -/
theorem replace_globals_pointwise (g : Json) (m : JsonMap)
    (hnodup : (m.map Prod.fst).Nodup) :
    replace_globals (.obj m) g = .ok (m.map (fun kv => (kv.1, substValue g kv.2))) := by
  have h0 := replaceGlobalsLoop_spec g m [] hnodup (by
    intro k hk
    simp at hk)
  simp only [List.nil_append] at h0
  show Except.ok (replaceGlobalsLoop m g m) = Except.ok (m.map (fun kv => (kv.1, substValue g kv.2)))
  rw [h0]

def metaExampleC6 : JsonMap :=
  [("title".data, Json.str ("@sitename".data)),
   ("missing".data, Json.str ("@nokey".data)),
   ("count".data, Json.num 3)]

def globalsExampleC6 : Json := Json.obj [("sitename".data, Json.str ("My Site".data))]

/-- Witness for C6: the spec's example plus a missing key and a non-string
value, evaluated. -/
theorem replace_globals_pointwise_witness :
    replace_globals (.obj metaExampleC6) globalsExampleC6 =
      .ok [("title".data, Json.str ("My Site".data)),
        ("missing".data, Json.str ("@nokey".data)),
        ("count".data, Json.num 3)] :=
  (replace_globals_pointwise globalsExampleC6 metaExampleC6 (by decide)).trans (by rfl)

/-! ## File-name helpers (`file_helpers` module)

Rust `Path::file_stem`/`Path::extension` split a file name at its last dot;
a name with no dot, or whose only dot is the leading character, has no
extension.  (The special name `..` never reaches these helpers.) -/

/-- Index of the last `.` in a file name. -/
def lastDotIdx (n : Str) : Option Nat :=
  match n.reverse.findIdx? (fun c => decide (c = '.')) with
  | none => none
  | some k => some (n.length - 1 - k)

def splitFileAtDot (n : Str) : Str × Option Str :=
  match lastDotIdx n with
  | none => (n, none)
  | some i => if i = 0 then (n, none) else (n.take i, some (n.drop (i + 1)))

/-- `get_file_ext` of the source: an error when there is no extension. -/
def get_file_ext (n : Str) : Except RErr Str :=
  match (splitFileAtDot n).2 with
  | none => .error (.bailed ("couldn't extract file extension".data))
  | some e => .ok e

/-- `get_file_stem` of the source (the typo of its message is the source's). -/
def get_file_stem (n : Str) : Except RErr Str :=
  match n with
  | [] => .error (.bailed ("couldn't get file sterm".data))
  | _ => .ok (splitFileAtDot n).1

/-! ## `split_frontmatter`

The source delegates to two external crates: the `extract_frontmatter`
splitter (configured with enclosing `---` lines) and `serde_yaml`, whose
target type is `JsonValue` — ANY YAML value, with no mapping check. -/

def splitLines (s : Str) : List Str := s.splitOn '\n'

def joinLines (ls : List Str) : Str := List.intercalate ['\n'] ls

def fmMarker : Str := "---".data

def trimSpaces (s : Str) : Str :=
  ((s.dropWhile (fun c => c = ' ')).reverse.dropWhile (fun c => c = ' ')).reverse

def hasColon (l : Str) : Bool := l.any (fun c => c = ':')

def startsWithBracketOpen (l : Str) : Bool :=
  match l with
  | c :: _ => c = '['
  | [] => false

/-- One `key: value` line of a flat mapping. -/
def parseYamlLineKV (l : Str) : Str × Json :=
  let k := l.takeWhile (fun c => ¬ (c = ':'))
  (trimSpaces k, Json.str (trimSpaces (l.drop (k.length + 1))))

/-- Modelled external collaborator: `serde_yaml::from_str::<JsonValue>` on
the flat subset these inputs use — a block of `key: value` lines is a
mapping of string scalars, a single plain line is a string scalar, an
unterminated flow sequence is a parse error.  The crate accepts any YAML
value, not only mappings. -/
def parseYaml (fm : Str) : Except RErr Json :=
  match (splitLines fm).filter (fun l => !l.isEmpty) with
  | [] => .error (.bailed ("EOF while parsing a value".data))
  | l :: rest =>
    if (l :: rest).all hasColon then
      .ok (Json.obj ((l :: rest).map parseYamlLineKV))
    else
      match rest with
      | [] =>
        if startsWithBracketOpen l then
          .error (.bailed ("did not find expected node content".data))
        else .ok (Json.str (trimSpaces l))
      | _ :: _ => .error (.bailed ("could not parse YAML".data))

/-- Modelled from the spec: the enclosing-lines splitter of the external
`extract_frontmatter` crate — the text must begin with the marker line,
the region up to the next marker line is the frontmatter, everything after
it is the body, and absent delimiters are the missing-metadata-block
failure. -/
def extractFm (input : Str) : Except RErr (Str × Str) :=
  match splitLines input with
  | [] => .error (.bailed ("missing metadata block".data))
  | first :: rest =>
    if first = fmMarker then
      match rest.findIdx? (fun l => decide (l = fmMarker)) with
      | some k => .ok (joinLines (rest.take k), joinLines (rest.drop (k + 1)))
      | none => .error (.bailed ("missing metadata block".data))
    else .error (.bailed ("missing metadata block".data))

/-- `split_frontmatter` of the source: split at the markers, then parse the
region as an arbitrary YAML value. -/
def split_frontmatter (content : Str) : Except RErr (Json × Str) :=
  match extractFm content with
  | .error er => .error er
  | .ok (fm, body) =>
    match parseYaml fm with
    | .error er => .error er
    | .ok v => .ok (v, body)

/-- Both delimiters present, per the modelled splitter. -/
def hasDelims (input : Str) : Bool :=
  match splitLines input with
  | [] => false
  | first :: rest =>
    decide (first = fmMarker) &&
      (rest.findIdx? (fun l => decide (l = fmMarker))).isSome

/-- **C7 counterexample**: a delimited header region that parses as a YAML
scalar — not a mapping — is accepted by `split_frontmatter`, which returns
the scalar unchecked; the claim says such inputs fail with a
malformed-metadata error. -/
theorem split_frontmatter_nonmapping_accepted :
    split_frontmatter (("---\nhello\n---\nbody").data) =
      .ok (Json.str ("hello".data), ("body").data) ∧
    (∀ m : JsonMap, Json.str ("hello".data) ≠ Json.obj m) :=
  ⟨rfl, fun _ h => Json.noConfusion h⟩

/-- **C7 amended**: absent delimiters fail with the (spec-modelled)
missing-metadata-block error; a delimited region parses as an arbitrary YAML
value — a well-formed mapping succeeds as a mapping, and a region that is
not parseable YAML fails with the parser's error; mapping-ness itself is not
enforced. -/
theorem split_frontmatter_behaviour :
    (∀ input : Str, hasDelims input = false →
        split_frontmatter input = .error (.bailed ("missing metadata block".data))) ∧
    split_frontmatter (("---\ntemplate: main\ndate: 2023-01-01\n---\nbody text").data) =
      .ok (Json.obj [("template".data, Json.str ("main".data)),
        ("date".data, Json.str ("2023-01-01".data))], ("body text").data) ∧
    split_frontmatter (("---\n[a\n---\nx").data) =
      .error (.bailed ("did not find expected node content".data)) := by
  refine ⟨?_, rfl, rfl⟩
  intro input h
  unfold hasDelims at h
  unfold split_frontmatter extractFm
  cases hs : splitLines input with
  | nil => simp only [hs]
  | cons first rest =>
    rw [hs] at h
    simp only [hs]
    by_cases hf : first = fmMarker
    · rw [if_pos hf]
      cases hidx : rest.findIdx? (fun l => decide (l = fmMarker)) with
      | some k =>
        rw [hf] at h
        simp [hidx] at h
      | none => simp only [hidx]
    · rw [if_neg hf]

/-- Witness for C7's amended statement: an input with no marker lines fails
with the missing-metadata-block error. -/
theorem split_frontmatter_behaviour_witness :
    split_frontmatter (("no frontmatter here").data) =
      .error (.bailed ("missing metadata block".data)) :=
  split_frontmatter_behaviour.1 (("no frontmatter here").data) rfl

/-! ## The in-memory trees

`Node`/`Directory` of the source and the input file tree are mutual
inductives (a directory is an ordered sequence of named children), so that
the tree walkers below are structural recursions. -/

mutual
inductive Node where
  | Page (html : Str)
  | Dir (dir : NodeDir)
inductive NodeDir where
  | nil
  | cons (name : Str) (node : Node) (rest : NodeDir)
end

mutual
inductive FsEntry where
  | file (name content : Str)
  | dir (name : Str) (entries : FsDir)
inductive FsDir where
  | nil
  | cons (e : FsEntry) (rest : FsDir)
end

def fsConcat : FsDir → FsDir → FsDir
  | .nil, d2 => d2
  | .cons e rest, d2 => .cons e (fsConcat rest d2)

/-- Structural induction over directory listings (no descent into entries
is needed by its consumers). -/
theorem fsDirInduction (P : FsDir → Prop) (hnil : P .nil)
    (hcons : ∀ e rest, P rest → P (.cons e rest)) : ∀ d, P d
  | .nil => hnil
  | .cons e rest => hcons e rest (fsDirInduction P hnil hcons rest)

/-! ## `compile_markdown`, `compile_file`, `compile_dir`

The two external collaborators — `markdown::to_html` and
`handlebars.render` — are parameters (`mdToHtml`, `render`), threaded
through the recursion the way the source threads the registry.  The
`NotADirectory` check and path canonicalisation of `compile_dir` concern the
process's filesystem root and are outside the tree model. -/

def compile_markdown (name content : Str) (globals : Json)
    (render : Str → JsonMap → Except RErr Str) (mdToHtml : Str → Str) :
    Except RErr (Option (Str × Str)) :=
  match split_frontmatter content with
  | .error er => .error er
  | .ok (fm, md) =>
    match replace_globals fm globals with
    | .error er => .error er
    | .ok fmm =>
      match replace_uuid_links md globals with
      | .error er => .error er
      | .ok md2 =>
        match lookupMap fmm ("template".data) with
        | none => .error (.panicked ("expected frontmatter to contain template name".data))
        | some tv =>
          match asStr tv with
          | none => .error (.panicked ("expected template name to be string".data))
          | some tmplName =>
            match render tmplName
                (insertMap ("content".data) (Json.str (mdToHtml md2)) fmm) with
            | .error er => .error er
            | .ok html =>
              match get_file_stem name with
              | .error er => .error er
              | .ok stem => .ok (some (html, stem ++ (".html".data)))

def compile_file (name content : Str) (globals : Json)
    (render : Str → JsonMap → Except RErr Str) (mdToHtml : Str → Str) :
    Except RErr (Option (Str × Str)) :=
  match get_file_ext name with
  | .error er => .error er
  | .ok ext =>
    if ext = ("md".data) then compile_markdown name content globals render mdToHtml
    else .ok none

/-- The body of `compile_dir`: walk the entries in order, skipping names
with a leading underscore and names in the ignore list; files go through
`compile_file` (a `None` result adds no node), directories recurse. -/
def compileEntries (d : FsDir) (globals : Json) (ignore : List Str)
    (render : Str → JsonMap → Except RErr Str) (mdToHtml : Str → Str) :
    Except RErr NodeDir :=
  match d with
  | .nil => .ok .nil
  | .cons (.file name content) rest =>
    if startsWithUnderscore name then compileEntries rest globals ignore render mdToHtml
    else if name ∈ ignore then compileEntries rest globals ignore render mdToHtml
    else
      match compile_file name content globals render mdToHtml with
      | .error er => .error er
      | .ok none => compileEntries rest globals ignore render mdToHtml
      | .ok (some (html, outName)) =>
        match compileEntries rest globals ignore render mdToHtml with
        | .error er => .error er
        | .ok ndRest => .ok (.cons outName (.Page html) ndRest)
  | .cons (.dir name sub) rest =>
    if startsWithUnderscore name then compileEntries rest globals ignore render mdToHtml
    else if name ∈ ignore then compileEntries rest globals ignore render mdToHtml
    else
      match compileEntries sub globals ignore render mdToHtml with
      | .error er => .error er
      | .ok subNd =>
        match compileEntries rest globals ignore render mdToHtml with
        | .error er => .error er
        | .ok ndRest => .ok (.cons name (.Dir subNd) ndRest)

/-! ## `expand_shorthand`

The function exists in the source and is exercised by a unit test, but no
caller in the pipeline invokes it.  The loop is mirrored literally —
including its use of `mat.start()` instead of the offset-adjusted position
for the insertion, and the compounding of `offset` into `start` — over
literal search patterns (the regex subset that the table of the spec's
example uses).  The loop returns the final `(text, new_text)` pair because
the truncated `text` carries over to the next pattern of the table. -/

def findSub (pat : Str) : Str → Option Nat
  | [] => none
  | c :: rest =>
    if pat.isPrefixOf (c :: rest) then some 0
    else
      match findSub pat rest with
      | some i => some (i + 1)
      | none => none

def expandLoopF : Nat → Str → Str → Nat → Str → Str → (Str × Str)
  | 0, text, newText, _, _, _ => (text, newText)
  | fuel + 1, text, newText, offset, pf, pt =>
    match findSub pf text with
    | none => (text, newText)
    | some ms =>
      let mEnd := ms + pf.length
      let start := offset + ms
      let endPos := offset + mEnd
      let nt1 := newText.take start ++ newText.drop endPos
      let nt2 := nt1.take ms ++ pt ++ nt1.drop ms
      expandLoopF fuel (text.drop mEnd) nt2 (offset + (start + pt.length - 1)) pf pt

def expand_shorthand (text : Str) (table : List (Str × Str)) : Str :=
  (table.foldl
    (fun (st : Str × Str) (ft : Str × Str) =>
      expandLoopF (st.1.length + 1) st.1 st.2 0 ft.1 ft.2)
    (text, text)).2

/-! ## Claim C1: the pipeline does not expand shorthand -/

/-- A concrete rendering collaborator: return the context's `content`
field. -/
def renderContentOnly : Str → JsonMap → Except RErr Str := fun _ fm =>
  match lookupMap fm ("content".data) with
  | some (Json.str s) => .ok s
  | _ => .error (.bailed ("no content".data))

def mdIdentity : Str → Str := fun s => s

def shorthandTableC1 : List (Str × Str) := [("--".data, "&#151;".data)]

def emptyPostsGlobals : Json := Json.obj [("posts".data, Json.arr [])]

def c1Input : Str := ("---\ntemplate: main\n---\na--b").data

def containsSub (pat text : Str) : Bool := (findSub pat text).isSome

/-- **C1 counterexample**: compiling a body containing the replacement
table's pattern `--` renders output that still contains `--` verbatim and
not the replacement `&#151;` that `expand_shorthand` would produce — the
per-file pipeline never invokes the shorthand expander. -/
theorem compile_markdown_no_expansion_counterexample :
    compile_markdown ("f.md".data) c1Input emptyPostsGlobals renderContentOnly mdIdentity =
      .ok (some (("a--b").data, ("f.html").data)) ∧
    containsSub ("--".data) (("a--b").data) = true ∧
    containsSub ("&#151;".data) (("a--b").data) = false ∧
    expand_shorthand (("a--b").data) shorthandTableC1 = ("a&#151;b").data :=
  ⟨rfl, rfl, rfl, rfl⟩

/-- **C1 amended**: the per-file pipeline is frontmatter extraction →
global-reference substitution → identifier-link resolution → markdown
conversion → template render; the `content` field handed to the renderer is
the markdown conversion of the resolved body directly, with no shorthand
expansion step in between. -/
theorem compile_markdown_pipeline (name content : Str) (globals : Json)
    (render : Str → JsonMap → Except RErr Str) (mdToHtml : Str → Str)
    (fm : Json) (body : Str) (fmm : JsonMap) (md2 : Str) (tv : Json) (tmpl : Str)
    (h1 : split_frontmatter content = .ok (fm, body))
    (h2 : replace_globals fm globals = .ok fmm)
    (h3 : replace_uuid_links body globals = .ok md2)
    (h4 : lookupMap fmm ("template".data) = some tv)
    (h5 : asStr tv = some tmpl) :
    compile_markdown name content globals render mdToHtml =
      (match render tmpl (insertMap ("content".data) (Json.str (mdToHtml md2)) fmm) with
       | .error er => .error er
       | .ok html =>
         match get_file_stem name with
         | .error er => .error er
         | .ok stem => .ok (some (html, stem ++ (".html".data)))) := by
  unfold compile_markdown
  simp only [h1, h2, h3, h4, h5]

/-- Witness for C1's amended statement at the concrete input. -/
theorem compile_markdown_pipeline_witness :
    compile_markdown ("f.md".data) c1Input emptyPostsGlobals renderContentOnly mdIdentity =
      (match renderContentOnly ("main".data)
          (insertMap ("content".data) (Json.str (mdIdentity (("a--b").data)))
            [("template".data, Json.str ("main".data))]) with
       | .error er => .error er
       | .ok html =>
         match get_file_stem ("f.md".data) with
         | .error er => .error er
         | .ok stem => .ok (some (html, stem ++ (".html".data)))) :=
  compile_markdown_pipeline ("f.md".data) c1Input emptyPostsGlobals
    renderContentOnly mdIdentity (Json.obj [("template".data, Json.str ("main".data))])
    (("a--b").data) [("template".data, Json.str ("main".data))] (("a--b").data)
    (Json.str ("main".data)) ("main".data) rfl rfl rfl rfl rfl

/-! ## Claim C8: unrecognised extensions -/

/-- **C8 counterexample**: a file with no extractable extension (a dotless
name such as `LICENSE`) does not get skipped — `get_file_ext`'s error aborts
the directory compilation. -/
theorem compile_dir_extensionless_fails :
    compileEntries (.cons (.file ("LICENSE".data) ("text".data)) .nil)
      emptyPostsGlobals [] renderContentOnly mdIdentity =
      .error (.bailed ("couldn't extract file extension".data)) := rfl

/-- **C8 amended**: a file whose name has an extension other than the
content extension `md` produces no node and no failure — compiling the
directory with the file present equals compiling it with the file absent —
whereas a file with no extractable extension aborts the compilation with the
`couldn't extract file extension` error. -/
theorem compile_dir_skips_non_md (globals : Json) (ignore : List Str)
    (render : Str → JsonMap → Except RErr Str) (mdToHtml : Str → Str)
    (name content : Str) (ext : Str)
    (hext : get_file_ext name = .ok ext) (hmd : ¬ (ext = ("md".data))) :
    (∀ pre post : FsDir,
      compileEntries (fsConcat pre (.cons (.file name content) post))
          globals ignore render mdToHtml =
        compileEntries (fsConcat pre post) globals ignore render mdToHtml) ∧
    (∀ (rest : FsDir) (n2 c2 : Str),
      (splitFileAtDot n2).2 = none →
      startsWithUnderscore n2 = false → n2 ∉ ignore →
      compileEntries (.cons (.file n2 c2) rest) globals ignore render mdToHtml =
        .error (.bailed ("couldn't extract file extension".data))) := by
  have hcf : compile_file name content globals render mdToHtml = .ok none := by
    unfold compile_file
    simp only [hext]
    rw [if_neg hmd]
  constructor
  · intro pre post
    induction pre using fsDirInduction with
    | hnil =>
      show compileEntries (.cons (.file name content) post) globals ignore render mdToHtml =
        compileEntries post globals ignore render mdToHtml
      by_cases hu : startsWithUnderscore name = true
      · simp only [compileEntries, hu, if_true]
      · by_cases hig : name ∈ ignore
        · simp only [compileEntries]
          rw [if_neg hu, if_pos hig]
        · simp only [compileEntries]
          rw [if_neg hu, if_neg hig, hcf]
    | hcons e rest ih =>
      cases e with
      | file n2 c2 =>
        show compileEntries (.cons (.file n2 c2) (fsConcat rest (.cons (.file name content) post)))
            globals ignore render mdToHtml =
          compileEntries (.cons (.file n2 c2) (fsConcat rest post)) globals ignore render mdToHtml
        simp only [compileEntries]
        rw [ih]
      | dir n2 sub =>
        show compileEntries (.cons (.dir n2 sub) (fsConcat rest (.cons (.file name content) post)))
            globals ignore render mdToHtml =
          compileEntries (.cons (.dir n2 sub) (fsConcat rest post)) globals ignore render mdToHtml
        simp only [compileEntries]
        rw [ih]
  · intro rest n2 c2 hsplit hu hig
    simp only [compileEntries]
    rw [if_neg (by simp [hu]), if_neg hig]
    have hcf2 : compile_file n2 c2 globals render mdToHtml =
        .error (.bailed ("couldn't extract file extension".data)) := by
      unfold compile_file get_file_ext
      simp only [hsplit]
    rw [hcf2]

/-- Witness for C8's amended statement: a `logo.png` file is compiled away
without error, and a dotless `LICENSE` file is the failing input. -/
theorem compile_dir_skips_non_md_witness :
    compileEntries (fsConcat .nil (.cons (.file ("logo.png".data) ("bin".data)) .nil))
        emptyPostsGlobals [] renderContentOnly mdIdentity =
      compileEntries (fsConcat .nil .nil) emptyPostsGlobals [] renderContentOnly mdIdentity ∧
    compileEntries (.cons (.file ("LICENSE".data) ("text".data)) .nil)
        emptyPostsGlobals [] renderContentOnly mdIdentity =
      .error (.bailed ("couldn't extract file extension".data)) :=
  ⟨(compile_dir_skips_non_md emptyPostsGlobals [] renderContentOnly mdIdentity
      ("logo.png".data) ("bin".data) ("png".data) rfl (by decide)).1 .nil .nil,
   (compile_dir_skips_non_md emptyPostsGlobals [] renderContentOnly mdIdentity
      ("logo.png".data) ("bin".data) ("png".data) rfl (by decide)).2 .nil
      ("LICENSE".data) ("text".data) rfl rfl (by simp)⟩

/-! ## The Post Indexer (`process_blog_posts`, `process_blog_posts_dir`,
`ensure_key`, `get_date`) -/

/-- `ensure_key(v, key, "str")` of the source ("str" is the only kind the
program uses). -/
def ensure_key (m : JsonMap) (key : Str) : Except RErr Unit :=
  match lookupMap m key with
  | none => .error (.bailed (("value does not contain key `".data) ++ key ++ ("`".data)))
  | some v =>
    match asStr v with
    | none =>
      .error (.bailed (("expected value of `".data) ++ key ++ ("` to be of type `str`".data)))
    | some _ => .ok ()

/-- `get_date` of the source: `v.get("date").unwrap().as_str().unwrap()`,
with the two unwraps modelled by `Option`. -/
def get_date (v : Json) : Option Str := (jget v ("date".data)).bind asStr

/-- The comparator's date accessor (total; C10 shows the default never
fires on indexer output). -/
def getDateD (v : Json) : Str := (get_date v).getD []

/-- Byte-lexicographic string comparison (`str::cmp` on ASCII): `a ≤ b`. -/
def lexLe : Str → Str → Bool
  | [], _ => true
  | _ :: _, [] => false
  | a :: as, b :: bs =>
    if a.toNat < b.toNat then true
    else if b.toNat < a.toNat then false
    else lexLe as bs

theorem lexLe_total : ∀ a b : Str, lexLe a b = true ∨ lexLe b a = true := by
  intro a
  induction a with
  | nil => intro b; left; rfl
  | cons x as ih =>
    intro b
    cases b with
    | nil => right; rfl
    | cons y bs =>
      simp only [lexLe]
      by_cases h1 : x.toNat < y.toNat
      · left; rw [if_pos h1]
      · by_cases h2 : y.toNat < x.toNat
        · right; rw [if_pos h2]
        · rw [if_neg h1, if_neg h2, if_neg h2, if_neg h1]
          exact ih bs

theorem lexLe_trans : ∀ a b c : Str,
    lexLe a b = true → lexLe b c = true → lexLe a c = true := by
  intro a
  induction a with
  | nil => intro b c _ _; rfl
  | cons x as ih =>
    intro b c hab hbc
    cases b with
    | nil => exact absurd hab (by simp [lexLe])
    | cons y bs =>
      cases c with
      | nil => exact absurd hbc (by simp [lexLe])
      | cons z cs =>
        simp only [lexLe] at hab hbc ⊢
        by_cases h1 : x.toNat < y.toNat
        · by_cases h2 : y.toNat < z.toNat
          · rw [if_pos (by omega : x.toNat < z.toNat)]
          · rw [if_neg h2] at hbc
            by_cases h3 : z.toNat < y.toNat
            · rw [if_pos h3] at hbc; exact absurd hbc (by simp)
            · rw [if_pos (by omega : x.toNat < z.toNat)]
        · rw [if_neg h1] at hab
          by_cases h4 : y.toNat < x.toNat
          · rw [if_pos h4] at hab; exact absurd hab (by simp)
          · rw [if_neg h4] at hab
            by_cases h2 : y.toNat < z.toNat
            · rw [if_pos (by omega : x.toNat < z.toNat)]
            · rw [if_neg h2] at hbc
              by_cases h3 : z.toNat < y.toNat
              · rw [if_pos h3] at hbc; exact absurd hbc (by simp)
              · rw [if_neg h3] at hbc
                rw [if_neg (by omega : ¬ (x.toNat < z.toNat)),
                  if_neg (by omega : ¬ (z.toNat < x.toNat))]
                exact ih bs cs hab hbc

/-- The sort relation of `posts.sort_by(|a, b| get_date(b).cmp(get_date(a)))`:
`a` precedes `b` when `b`'s date is lexicographically at most `a`'s. -/
def rDate (a b : Json) : Prop := lexLe (getDateD b) (getDateD a) = true

instance : DecidableRel rDate := fun a b => by
  unfold rDate
  infer_instance

instance : IsTotal Json rDate :=
  ⟨fun a b => by
    unfold rDate
    rcases lexLe_total (getDateD b) (getDateD a) with h | h
    · exact Or.inl h
    · exact Or.inr h⟩

instance : IsTrans Json rDate :=
  ⟨fun _ _ _ hab hbc => lexLe_trans _ _ _ hbc hab⟩

/-- `sort_by` is a stable sort with a total, transitive comparator; every
stable sort agrees, so it is modelled by stable insertion sort. -/
def sortPosts (posts : List Json) : List Json := List.insertionSort rDate posts

/-- `fm.as_object_mut().unwrap()`. -/
def asObjPanic (fm : Json) : Except RErr JsonMap :=
  match fm with
  | .obj m => .ok m
  | _ => .error (.panicked ("frontmatter to be a mapping".data))

/-- `link` = `/blog` + relative directory + output name (PathBuf pushes). -/
def mkLink (rel : List Str) (outName : Str) : Str :=
  ("/blog".data) ++ (rel.map (fun c => '/' :: c)).flatten ++ ('/' :: outName)

/-- The walk of `process_blog_posts_dir`: depth-first in listing order;
a subdirectory's leading-underscore check happens on entry to the recursive
call (as in the source); files skip on leading underscore, the literal name
`index.md`, and a non-`md` extension (an extensionless file is an error);
remaining files contribute their frontmatter with `link` appended. -/
def walkEntries (d : FsDir) (rel : List Str) (acc : List Json) :
    Except RErr (List Json) :=
  match d with
  | .nil => .ok acc
  | .cons (.dir n sub) rest =>
    match (if startsWithUnderscore n then Except.ok acc
           else walkEntries sub (rel ++ [n]) acc) with
    | .error er => .error er
    | .ok acc2 => walkEntries rest rel acc2
  | .cons (.file n content) rest =>
    if startsWithUnderscore n then walkEntries rest rel acc
    else if n = ("index.md".data) then walkEntries rest rel acc
    else
      match get_file_ext n with
      | .error er => .error er
      | .ok ext =>
        if ext = ("md".data) then
          match split_frontmatter content with
          | .error er => .error er
          | .ok (fm, _) =>
            match asObjPanic fm with
            | .error er => .error er
            | .ok m =>
              match ensure_key m ("date".data) with
              | .error er => .error er
              | .ok _ =>
                match get_file_stem n with
                | .error er => .error er
                | .ok stem =>
                  walkEntries rest rel
                    (acc ++ [Json.obj (insertMap ("link".data)
                      (Json.str (mkLink rel (stem ++ (".html".data)))) m)])
        else walkEntries rest rel acc

/-- `process_blog_posts`: walk the blog subtree, then sort by date
descending. -/
def process_blog_posts (blogDirName : Str) (entries : FsDir) :
    Except RErr (List Json) :=
  match (if startsWithUnderscore blogDirName then Except.ok []
         else walkEntries entries [] []) with
  | .error er => .error er
  | .ok posts => .ok (sortPosts posts)

/-! ## Claim C3: descending-date order -/

def exampleBlogTree : FsDir :=
  .cons (.file ("a.md".data) (("---\ndate: 2023-01-01\ntitle: A\nid: aaa1\n---\nbody").data))
  (.cons (.file ("b.md".data) (("---\ndate: 2024-05-05\ntitle: B\nid: bbb2\n---\nbody").data))
  (.cons (.file ("c.md".data) (("---\ndate: 2023-06-01\ntitle: C\nid: ccc3\n---\nbody").data))
  .nil))

def post2024 : Json :=
  Json.obj [("date".data, Json.str ("2024-05-05".data)),
    ("title".data, Json.str ("B".data)), ("id".data, Json.str ("bbb2".data)),
    ("link".data, Json.str ("/blog/b.html".data))]

def post2023jun : Json :=
  Json.obj [("date".data, Json.str ("2023-06-01".data)),
    ("title".data, Json.str ("C".data)), ("id".data, Json.str ("ccc3".data)),
    ("link".data, Json.str ("/blog/c.html".data))]

def post2023jan : Json :=
  Json.obj [("date".data, Json.str ("2023-01-01".data)),
    ("title".data, Json.str ("A".data)), ("id".data, Json.str ("aaa1".data)),
    ("link".data, Json.str ("/blog/a.html".data))]

def exampleIndexedPosts : List Json := [post2024, post2023jun, post2023jan]

/-- **C3**: the indexer's output is sorted by the `date` field in descending
order under plain lexicographic string comparison; on the three dates of the
spec's example the output order is 2024-05-05, 2023-06-01, 2023-01-01. -/
theorem process_blog_posts_sorted :
    (∀ (blogName : Str) (entries : FsDir) (posts : List Json),
        process_blog_posts blogName entries = .ok posts →
        List.Sorted rDate posts) ∧
    process_blog_posts ("blog".data) exampleBlogTree = .ok exampleIndexedPosts := by
  constructor
  · intro blogName entries posts h
    unfold process_blog_posts at h
    cases hw : (if startsWithUnderscore blogName then Except.ok []
        else walkEntries entries [] []) with
    | error er => rw [hw] at h; exact Except.noConfusion h
    | ok l =>
      rw [hw] at h
      have hps : sortPosts l = posts := by
        have := h
        simp only [Except.ok.injEq] at this
        exact this
      rw [← hps]
      exact List.sorted_insertionSort rDate l
  · rfl

/-- Witness for C3: the theorem applied to the concrete three-post tree. -/
theorem process_blog_posts_sorted_witness :
    List.Sorted rDate exampleIndexedPosts :=
  process_blog_posts_sorted.1 ("blog".data) exampleBlogTree exampleIndexedPosts rfl

/-! ## Claim C10: indexer output invariant -/

mutual
def fsEntrySize : FsEntry → Nat
  | .file _ _ => 1
  | .dir _ entries => 1 + fsDirSize entries
def fsDirSize : FsDir → Nat
  | .nil => 0
  | .cons e rest => fsEntrySize e + fsDirSize rest + 1
end

theorem fsEntrySize_pos : ∀ e : FsEntry, 1 ≤ fsEntrySize e
  | .file _ _ => le_refl 1
  | .dir _ _ => by simp [fsEntrySize]

theorem lookupMap_insertMap_self (m : JsonMap) (k : Str) (v : Json) :
    lookupMap (insertMap k v m) k = some v := by
  induction m with
  | nil => simp [insertMap, lookupMap]
  | cons kv rest ih =>
    obtain ⟨kk, vv⟩ := kv
    simp only [insertMap]
    by_cases h : kk = k
    · rw [if_pos h]
      simp [lookupMap]
    · rw [if_neg h]
      simp only [lookupMap]
      rw [if_neg h]
      exact ih

theorem lookupMap_insertMap_ne (m : JsonMap) {k k2 : Str} (v : Json)
    (hne : ¬ (k2 = k)) :
    lookupMap (insertMap k v m) k2 = lookupMap m k2 := by
  induction m with
  | nil =>
    simp only [insertMap, lookupMap]
    rw [if_neg (fun hc => hne hc.symm)]
  | cons kv rest ih =>
    obtain ⟨kk, vv⟩ := kv
    simp only [insertMap]
    by_cases h : kk = k
    · rw [if_pos h]
      simp only [lookupMap]
      rw [if_neg (fun hc => hne hc.symm), if_neg (fun hc => hne (h ▸ hc).symm)]
    · rw [if_neg h]
      simp only [lookupMap]
      by_cases h2 : kk = k2
      · rw [if_pos h2, if_pos h2]
      · rw [if_neg h2, if_neg h2]
        exact ih

theorem asStr_eq_some {w : Json} {s : Str} (h : asStr w = some s) :
    w = Json.str s := by
  cases w <;> simp_all [asStr]

theorem ensure_key_ok {m : JsonMap} {key : Str} (h : ensure_key m key = .ok ()) :
    ∃ s, lookupMap m key = some (Json.str s) := by
  unfold ensure_key at h
  cases hl : lookupMap m key with
  | none =>
    rw [hl] at h
    exact Except.noConfusion h
  | some w =>
    simp only [hl] at h
    cases ha : asStr w with
    | none =>
      simp only [ha] at h
      exact Except.noConfusion h
    | some s =>
      exact ⟨s, by rw [asStr_eq_some ha]⟩

/-- The invariant the claim states for every indexed post. -/
def postFieldsOk (p : Json) : Prop :=
  (∃ s, jget p ("date".data) = some (Json.str s)) ∧
  (∃ s, jget p ("link".data) = some (Json.str s))

theorem walkEntries_preserves : ∀ (N : Nat) (d : FsDir), fsDirSize d < N →
    ∀ (rel : List Str) (acc out : List Json),
      walkEntries d rel acc = .ok out → (∀ p ∈ acc, postFieldsOk p) →
      ∀ p ∈ out, postFieldsOk p := by
  intro N
  induction N with
  | zero => intro d hd; omega
  | succ N ih =>
    intro d hd rel acc out hw hacc
    cases d with
    | nil =>
      simp only [walkEntries, Except.ok.injEq] at hw
      exact hw ▸ hacc
    | cons e rest =>
      cases e with
      | dir n sub =>
        have hsub : fsDirSize sub < N := by
          simp only [fsDirSize, fsEntrySize] at hd
          omega
        have hrest : fsDirSize rest < N := by
          have := fsEntrySize_pos (.dir n sub)
          simp only [fsDirSize] at hd
          omega
        simp only [walkEntries] at hw
        by_cases hu : startsWithUnderscore n = true
        · rw [if_pos hu] at hw
          simp only at hw
          exact ih rest hrest rel acc out hw hacc
        · rw [if_neg hu] at hw
          cases hsubw : walkEntries sub (rel ++ [n]) acc with
          | error er =>
            rw [hsubw] at hw
            exact Except.noConfusion hw
          | ok acc2 =>
            rw [hsubw] at hw
            simp only at hw
            exact ih rest hrest rel acc2 out hw
              (ih sub hsub (rel ++ [n]) acc acc2 hsubw hacc)
      | file n content =>
        have hrest : fsDirSize rest < N := by
          have := fsEntrySize_pos (.file n content)
          simp only [fsDirSize] at hd
          omega
        simp only [walkEntries] at hw
        by_cases hu : startsWithUnderscore n = true
        · rw [if_pos hu] at hw
          exact ih rest hrest rel acc out hw hacc
        · rw [if_neg hu] at hw
          by_cases hidx : n = ("index.md".data)
          · rw [if_pos hidx] at hw
            exact ih rest hrest rel acc out hw hacc
          · rw [if_neg hidx] at hw
            cases hext : get_file_ext n with
            | error er =>
              rw [hext] at hw
              exact Except.noConfusion hw
            | ok ext =>
              simp only [hext] at hw
              by_cases hmd : ext = ("md".data)
              · rw [if_pos hmd] at hw
                cases hsf : split_frontmatter content with
                | error er =>
                  rw [hsf] at hw
                  exact Except.noConfusion hw
                | ok fmbody =>
                  obtain ⟨fm, body⟩ := fmbody
                  simp only [hsf] at hw
                  cases hobj : asObjPanic fm with
                  | error er =>
                    rw [hobj] at hw
                    exact Except.noConfusion hw
                  | ok m =>
                    simp only [hobj] at hw
                    cases hek : ensure_key m ("date".data) with
                    | error er =>
                      rw [hek] at hw
                      exact Except.noConfusion hw
                    | ok u =>
                      obtain ⟨⟩ := u
                      simp only [hek] at hw
                      cases hstem : get_file_stem n with
                      | error er =>
                        rw [hstem] at hw
                        exact Except.noConfusion hw
                      | ok stem =>
                        simp only [hstem] at hw
                        refine ih rest hrest rel _ out hw ?_
                        intro p hp
                        rcases List.mem_append.mp hp with hp | hp
                        · exact hacc p hp
                        · simp only [List.mem_singleton] at hp
                          subst hp
                          obtain ⟨s, hs⟩ := ensure_key_ok hek
                          constructor
                          · refine ⟨s, ?_⟩
                            show lookupMap (insertMap ("link".data) _ m) ("date".data) = _
                            rw [lookupMap_insertMap_ne m _ (by decide)]
                            exact hs
                          · refine ⟨mkLink rel (stem ++ (".html".data)), ?_⟩
                            exact lookupMap_insertMap_self m _ _
              · rw [if_neg hmd] at hw
                exact ih rest hrest rel acc out hw hacc

/-- **C10**: every element of the indexer's output carries a string-typed
`date` (checked by `ensure_key` before collection) and a string-typed `link`
(inserted during collection), so the `get_date` accessor used by the final
sort never meets a missing or non-string date. -/
theorem process_blog_posts_fields (blogName : Str) (entries : FsDir)
    (posts : List Json) (h : process_blog_posts blogName entries = .ok posts) :
    ∀ p ∈ posts, (∃ s, jget p ("date".data) = some (Json.str s)) ∧
      (∃ s, jget p ("link".data) = some (Json.str s)) ∧
      (get_date p).isSome = true := by
  unfold process_blog_posts at h
  cases hw : (if startsWithUnderscore blogName then Except.ok []
      else walkEntries entries [] []) with
  | error er =>
    rw [hw] at h
    exact Except.noConfusion h
  | ok l =>
    rw [hw] at h
    simp only [Except.ok.injEq] at h
    have hl : ∀ p ∈ l, postFieldsOk p := by
      by_cases hu : startsWithUnderscore blogName = true
      · rw [if_pos hu] at hw
        simp only [Except.ok.injEq] at hw
        subst hw
        intro p hp
        exact absurd hp (List.not_mem_nil p)
      · rw [if_neg hu] at hw
        exact walkEntries_preserves (fsDirSize entries + 1) entries (by omega)
          [] [] l hw (by intro p hp; exact absurd hp (List.not_mem_nil p))
    intro p hp
    have hmem : p ∈ l := by
      have hperm := List.perm_insertionSort rDate l
      rw [← h] at hp
      exact hperm.mem_iff.mp hp
    obtain ⟨⟨s1, hs1⟩, ⟨s2, hs2⟩⟩ := hl p hmem
    refine ⟨⟨s1, hs1⟩, ⟨s2, hs2⟩, ?_⟩
    unfold get_date
    rw [hs1]
    rfl

/-- Witness for C10 at the concrete three-post tree, instantiated at its
first output element. -/
theorem process_blog_posts_fields_witness :
    (∃ s, jget post2024 ("date".data) = some (Json.str s)) ∧
    (∃ s, jget post2024 ("link".data) = some (Json.str s)) ∧
    (get_date post2024).isSome = true :=
  process_blog_posts_fields ("blog".data) exampleBlogTree exampleIndexedPosts rfl
    post2024 (by simp [exampleIndexedPosts])

/-! ## The Tree Emitter (`emit_directory`)

The target filesystem below the output root is modelled in memory as named
entries (`FsState`); for every output entry the source first deletes an
existing file (`remove_file`) and then an existing directory
(`remove_dir_all`), writes `Page` nodes with `fs::write`, and for `Dir`
nodes runs `create_dir_all` and recurses into the directory's (now empty)
state.  (I/O failures of the host filesystem are outside the model.) -/

mutual
inductive FsNode where
  | f (content : Str)
  | d (entries : FsState)
inductive FsState where
  | nil
  | cons (name : Str) (node : FsNode) (rest : FsState)
end

def lookupFs : FsState → Str → Option FsNode
  | .nil, _ => none
  | .cons n node rest, name => if n = name then some node else lookupFs rest name

/-- `target.is_file()`. -/
def isFileAt (fs : FsState) (name : Str) : Bool :=
  match lookupFs fs name with
  | some (.f _) => true
  | _ => false

/-- `target.is_dir()`. -/
def isDirAt (fs : FsState) (name : Str) : Bool :=
  match lookupFs fs name with
  | some (.d _) => true
  | _ => false

/-- `remove_file` / `remove_dir_all`: drop the binding. -/
def removeFs : FsState → Str → FsState
  | .nil, _ => .nil
  | .cons n node rest, name =>
    if n = name then removeFs rest name else .cons n node (removeFs rest name)

/-- Write or replace a binding (`fs::write`, and directory updates). -/
def setFs : FsState → Str → FsNode → FsState
  | .nil, name, node => .cons name node .nil
  | .cons n nd rest, name, node =>
    if n = name then .cons name node rest else .cons n nd (setFs rest name node)

/-- `create_dir_all`: ensure a directory exists (an existing file at the
path would be an I/O error, unreachable after the removals). -/
def createDirAllFs (fs : FsState) (name : Str) : FsState :=
  match lookupFs fs name with
  | some _ => fs
  | none => setFs fs name (.d .nil)

mutual
/-- `emit_directory(dir, target)` as a transformation of the target state. -/
def emit_directory : NodeDir → FsState → FsState
  | .nil, fs => fs
  | .cons name node rest, fs => emit_directory rest (emitEntry name node fs)
/-- One loop iteration: remove what exists, then write the node. -/
def emitEntry (name : Str) : Node → FsState → FsState
  | .Page html, fs =>
    let fs1 := if isFileAt fs name then removeFs fs name else fs
    let fs2 := if isDirAt fs1 name then removeFs fs1 name else fs1
    setFs fs2 name (.f html)
  | .Dir dir, fs =>
    let fs1 := if isFileAt fs name then removeFs fs name else fs
    let fs2 := if isDirAt fs1 name then removeFs fs1 name else fs1
    let fs3 := createDirAllFs fs2 name
    let child :=
      match lookupFs fs3 name with
      | some (.d s) => s
      | _ => .nil
    setFs fs3 name (.d (emit_directory dir child))
end

def nodeNames : NodeDir → List Str
  | .nil => []
  | .cons n _ rest => n :: nodeNames rest

def memNode (name : Str) (node : Node) : NodeDir → Prop
  | .nil => False
  | .cons n nd rest => (n = name ∧ nd = node) ∨ memNode name node rest

theorem nodeDirInduction (P : NodeDir → Prop) (hnil : P .nil)
    (hcons : ∀ n nd rest, P rest → P (.cons n nd rest)) : ∀ d, P d
  | .nil => hnil
  | .cons n nd rest => hcons n nd rest (nodeDirInduction P hnil hcons rest)

theorem fsStateInduction (P : FsState → Prop) (hnil : P .nil)
    (hcons : ∀ n nd rest, P rest → P (.cons n nd rest)) : ∀ s, P s
  | .nil => hnil
  | .cons n nd rest => hcons n nd rest (fsStateInduction P hnil hcons rest)

theorem lookupFs_setFs_self : ∀ (fs : FsState) (k : Str) (v : FsNode),
    lookupFs (setFs fs k v) k = some v := by
  intro fs
  induction fs using fsStateInduction with
  | hnil => intro k v; simp [setFs, lookupFs]
  | hcons n nd rest ih =>
    intro k v
    simp only [setFs]
    by_cases h : n = k
    · rw [if_pos h]
      simp [lookupFs]
    · rw [if_neg h]
      simp only [lookupFs]
      rw [if_neg h]
      exact ih k v

theorem lookupFs_setFs_ne : ∀ (fs : FsState) {k k2 : Str} (v : FsNode),
    ¬ (k = k2) → lookupFs (setFs fs k v) k2 = lookupFs fs k2 := by
  intro fs
  induction fs using fsStateInduction with
  | hnil =>
    intro k k2 v hne
    simp only [setFs, lookupFs]
    rw [if_neg hne]
  | hcons n nd rest ih =>
    intro k k2 v hne
    simp only [setFs]
    by_cases h : n = k
    · rw [if_pos h]
      simp only [lookupFs]
      rw [if_neg hne, if_neg (fun hc => hne (h.symm.trans hc))]
    · rw [if_neg h]
      simp only [lookupFs]
      by_cases h2 : n = k2
      · rw [if_pos h2, if_pos h2]
      · rw [if_neg h2, if_neg h2]
        exact ih v hne

theorem lookupFs_removeFs_self : ∀ (fs : FsState) (k : Str),
    lookupFs (removeFs fs k) k = none := by
  intro fs
  induction fs using fsStateInduction with
  | hnil => intro k; rfl
  | hcons n nd rest ih =>
    intro k
    simp only [removeFs]
    by_cases h : n = k
    · rw [if_pos h]
      exact ih k
    · rw [if_neg h]
      simp only [lookupFs]
      rw [if_neg h]
      exact ih k

theorem lookupFs_removeFs_ne : ∀ (fs : FsState) {k k2 : Str},
    ¬ (k = k2) → lookupFs (removeFs fs k) k2 = lookupFs fs k2 := by
  intro fs
  induction fs using fsStateInduction with
  | hnil => intro k k2 _; rfl
  | hcons n nd rest ih =>
    intro k k2 hne
    simp only [removeFs]
    by_cases h : n = k
    · rw [if_pos h]
      simp only [lookupFs]
      rw [if_neg (fun hc => hne (h.symm.trans hc))]
      exact ih hne
    · rw [if_neg h]
      simp only [lookupFs]
      by_cases h2 : n = k2
      · rw [if_pos h2, if_pos h2]
      · rw [if_neg h2, if_neg h2]
        exact ih hne

/-- After the two removal checks nothing remains at the entry's name. -/
theorem lookupFs_after_removals (fs : FsState) (name : Str) :
    lookupFs
      (if isDirAt (if isFileAt fs name then removeFs fs name else fs) name then
        removeFs (if isFileAt fs name then removeFs fs name else fs) name
       else (if isFileAt fs name then removeFs fs name else fs)) name = none := by
  by_cases h1 : isFileAt fs name = true
  · rw [if_pos h1]
    have hgone : lookupFs (removeFs fs name) name = none := lookupFs_removeFs_self fs name
    have hdir : isDirAt (removeFs fs name) name = false := by
      unfold isDirAt
      rw [hgone]
    rw [hdir]
    simp only [Bool.false_eq_true, if_false]
    exact hgone
  · rw [if_neg h1]
    by_cases h2 : isDirAt fs name = true
    · rw [if_pos h2]
      exact lookupFs_removeFs_self fs name
    · rw [if_neg h2]
      unfold isFileAt at h1
      unfold isDirAt at h2
      cases hl : lookupFs fs name with
      | none => rfl
      | some nd =>
        cases nd with
        | f c => rw [hl] at h1; simp at h1
        | d s => rw [hl] at h2; simp at h2

/-- Emitting an entry under a different name does not touch this name. -/
theorem emitEntry_other (n : Str) (node : Node) (fs : FsState) (name : Str)
    (hne : ¬ (n = name)) :
    lookupFs (emitEntry n node fs) name = lookupFs fs name := by
  have hstep : ∀ fs2 : FsState,
      lookupFs (if isDirAt (if isFileAt fs2 n then removeFs fs2 n else fs2) n then
          removeFs (if isFileAt fs2 n then removeFs fs2 n else fs2) n
        else (if isFileAt fs2 n then removeFs fs2 n else fs2)) name =
        lookupFs fs2 name := by
    intro fs2
    by_cases h1 : isFileAt fs2 n = true
    · rw [if_pos h1]
      by_cases h2 : isDirAt (removeFs fs2 n) n = true
      · rw [if_pos h2, lookupFs_removeFs_ne _ hne, lookupFs_removeFs_ne _ hne]
      · rw [if_neg h2, lookupFs_removeFs_ne _ hne]
    · rw [if_neg h1]
      by_cases h2 : isDirAt fs2 n = true
      · rw [if_pos h2, lookupFs_removeFs_ne _ hne]
      · rw [if_neg h2]
  cases node with
  | Page html =>
    show lookupFs (setFs _ n (.f html)) name = _
    rw [lookupFs_setFs_ne _ _ hne]
    exact hstep fs
  | Dir dir =>
    show lookupFs (setFs (createDirAllFs _ n) n _) name = _
    rw [lookupFs_setFs_ne _ _ hne]
    unfold createDirAllFs
    cases hl : lookupFs (if isDirAt (if isFileAt fs n then removeFs fs n else fs) n then
        removeFs (if isFileAt fs n then removeFs fs n else fs) n
      else (if isFileAt fs n then removeFs fs n else fs)) n with
    | some nd => exact hstep fs
    | none =>
      rw [lookupFs_setFs_ne _ _ hne]
      exact hstep fs

/-- Emitting a directory listing that does not mention a name leaves that
name's entry unchanged. -/
theorem emit_directory_not_mem (name : Str) :
    ∀ (nodes : NodeDir), name ∉ nodeNames nodes → ∀ fs : FsState,
      lookupFs (emit_directory nodes fs) name = lookupFs fs name := by
  intro nodes
  induction nodes using nodeDirInduction with
  | hnil => intro _ fs; rfl
  | hcons n nd rest ih =>
    intro hmem fs
    simp only [nodeNames, List.mem_cons] at hmem
    push_neg at hmem
    obtain ⟨hne, hmem2⟩ := hmem
    show lookupFs (emit_directory rest (emitEntry n nd fs)) name = _
    rw [ih hmem2 (emitEntry n nd fs), emitEntry_other n nd fs name (fun hc => hne hc.symm)]

/-- The freshly emitted content at an entry's name. -/
theorem emitEntry_self (name : Str) (node : Node) (fs : FsState) :
    lookupFs (emitEntry name node fs) name =
      some (match node with
        | .Page html => FsNode.f html
        | .Dir dir => FsNode.d (emit_directory dir .nil)) := by
  cases node with
  | Page html =>
    show lookupFs (setFs _ name (.f html)) name = _
    rw [lookupFs_setFs_self]
  | Dir dir =>
    show lookupFs (setFs (createDirAllFs _ name) name _) name = _
    rw [lookupFs_setFs_self]
    have hnone := lookupFs_after_removals fs name
    unfold createDirAllFs
    rw [hnone, lookupFs_setFs_self]

theorem memNode_name_mem {name : Str} {node : Node} :
    ∀ nodes : NodeDir, memNode name node nodes → name ∈ nodeNames nodes := by
  intro nodes
  induction nodes using nodeDirInduction with
  | hnil => intro h; exact absurd h (fun x => x)
  | hcons n nd rest ih =>
    intro h
    rcases h with ⟨h1, _⟩ | h2
    · simp [nodeNames, h1]
    · simp only [nodeNames, List.mem_cons]
      exact Or.inr (ih h2)

/-- **C9**: for every entry of the output tree (appearing once among its
siblings), whatever previously existed at the target name — a file or a
whole directory, of either kind — is gone after emission, and the name holds
exactly the newly emitted content: a `Page`'s text, or a `Dir` emitted into
an empty directory. -/
theorem emit_directory_overwrites (name : Str) (node : Node) :
    ∀ (nodes : NodeDir), memNode name node nodes →
      (nodeNames nodes).count name = 1 →
      ∀ fs : FsState,
        lookupFs (emit_directory nodes fs) name =
          some (match node with
            | .Page html => FsNode.f html
            | .Dir dir => FsNode.d (emit_directory dir .nil)) := by
  intro nodes
  induction nodes using nodeDirInduction with
  | hnil => intro hmem; exact absurd hmem (fun h => h)
  | hcons n nd rest ih =>
    intro hmem hcount fs
    simp only [nodeNames, List.count_cons] at hcount
    rcases hmem with ⟨h1, h2⟩ | hmem2
    · have hnotin : name ∉ nodeNames rest := by
        intro hc
        have h3 : 0 < (nodeNames rest).count name := List.count_pos_iff.mpr hc
        rw [h1] at hcount
        simp at hcount
        omega
      show lookupFs (emit_directory rest (emitEntry n nd fs)) name = _
      rw [emit_directory_not_mem name rest hnotin, h1, h2, emitEntry_self]
    · have hne : ¬ (n = name) := by
        intro hc
        have hmemname : name ∈ nodeNames rest := memNode_name_mem rest hmem2
        have h3 : 0 < (nodeNames rest).count name := List.count_pos_iff.mpr hmemname
        rw [hc] at hcount
        simp at hcount
        omega
      have hcount2 : (nodeNames rest).count name = 1 := by
        have hbeq : (n == name) = false := by
          simp only [beq_eq_false_iff_ne, ne_eq]
          exact hne
        rw [hbeq] at hcount
        simpa using hcount
      show lookupFs (emit_directory rest (emitEntry n nd fs)) name = _
      exact ih hmem2 hcount2 (emitEntry n nd fs)

/-- Witness for C9: the target already holds a FILE named `x`; the new tree
holds a DIRECTORY named `x` containing one page; after emission `x` is that
fresh directory. -/
theorem emit_directory_overwrites_witness :
    lookupFs
      (emit_directory
        (.cons ("x".data) (.Dir (.cons ("y".data) (.Page ("hi".data)) .nil)) .nil)
        (.cons ("x".data) (.f ("old".data)) .nil))
      ("x".data) =
      some (FsNode.d (emit_directory (.cons ("y".data) (.Page ("hi".data)) .nil) .nil)) :=
  emit_directory_overwrites ("x".data)
    (.Dir (.cons ("y".data) (.Page ("hi".data)) .nil))
    (.cons ("x".data) (.Dir (.cons ("y".data) (.Page ("hi".data)) .nil)) .nil)
    (Or.inl ⟨rfl, rfl⟩) (by decide)
    (.cons ("x".data) (.f ("old".data)) .nil)
